import Mathlib

/-!
Verification of the WOMBAT offshore-wind O&M discrete-event simulation core.

The repository ships only documentation for the engine, so the engine itself
(SimulationClock, repair-request queue, dispatch strategies, port orchestration,
failure models, and the Simulation boundary) is embedded here from the design
specification.  Every definition whose doc comment starts with
"Modelled from the spec:" reconstructs a component that is described in the
specification but whose implementation file is not part of this source tree.
-/

set_option maxHeartbeats 1000000

/-- Generic argmax-style fold: keep the current best element, replacing it
whenever a later element is strictly better according to the given relation. -/
def foldBest {α : Type} (better : α → α → Bool) : α → List α → α
  | a, [] => a
  | a, z :: zs => foldBest better (if better z a then z else a) zs

/-- Pick the best element of a list under the given strict relation,
returning none for the empty list.  Ties are resolved toward the earlier
element, which realises first-in-first-out behaviour for tied priorities. -/
def pickBest {α : Type} (better : α → α → Bool) : List α → Option α
  | [] => none
  | x :: xs => some (foldBest better x xs)

/-- Modelled from the spec: the simulation error taxonomy (section 7).
InvalidTimeError is raised for scheduling in the past, ConfigurationError and
NumericalError abort construction, and SAMHorizonMismatch is the failure of the
external SAM financial post-processing on run lengths not divisible by 8760. -/
inductive SimError where
  | InvalidTimeError
  | ConfigurationError
  | NumericalError
  | SAMHorizonMismatch
deriving DecidableEq, Repr

/-- Modelled from the spec: a pending event on the clock.  It carries the
scheduled time in hours, an event id assigned in insertion (creation) order,
and an abstract payload. -/
structure PendingEvent (α : Type) where
  time : Nat
  eid : Nat
  payload : α
deriving DecidableEq, Repr

/-- Strict priority order on pending events: earlier scheduled time first,
with equal-time ties broken by the insertion-order event id (FIFO). -/
def evLt {α : Type} (a b : PendingEvent α) : Bool :=
  decide (a.time < b.time) || (decide (a.time = b.time) && decide (a.eid < b.eid))

/-- Modelled from the spec: the SimulationClock, owning the current time in
hours, the next insertion-order id, and the queue of pending events. -/
structure SimulationClock (α : Type) where
  now : Nat
  nextId : Nat
  pending : List (PendingEvent α)
deriving DecidableEq, Repr

/-- Modelled from the spec: schedule(time, event) fails with InvalidTimeError
exactly when the requested time is in the past, and otherwise inserts the event
with the next insertion-order id. -/
def SimulationClock.schedule {α : Type} (c : SimulationClock α) (t : Nat) (p : α) :
    Except SimError (SimulationClock α) :=
  if t < c.now then Except.error SimError.InvalidTimeError
  else Except.ok ⟨c.now, c.nextId + 1, c.pending ++ [⟨t, c.nextId, p⟩]⟩

/-- Modelled from the spec: advance() removes and returns the pending event
with the earliest scheduled time, breaking equal-time ties by insertion order,
and moves the clock to that event's time. -/
def SimulationClock.advance {α : Type} [DecidableEq α] (c : SimulationClock α) :
    Option (PendingEvent α × SimulationClock α) :=
  match pickBest evLt c.pending with
  | none => none
  | some e => some (e, ⟨e.time, c.nextId, c.pending.erase e⟩)

/-- Modelled from the spec: cancel(event_id) removes a still-pending event,
leaving every other pending event in place. -/
def SimulationClock.cancel {α : Type} (c : SimulationClock α) (eid : Nat) :
    SimulationClock α :=
  ⟨c.now, c.nextId, c.pending.filter (fun x => x.eid != eid)⟩

/-- Clock well-formedness: pending events are never in the past, their ids were
assigned by the clock (hence below nextId), and ids are pairwise distinct. -/
def ClockInv {α : Type} (c : SimulationClock α) : Prop :=
  (∀ x ∈ c.pending, c.now ≤ x.time ∧ x.eid < c.nextId) ∧
  (c.pending.map (fun x => x.eid)).Nodup

/-- A lower bound for a clock: the event b precedes, in execution order,
everything the clock can still produce - its id is older than any id the clock
will assign, its time is not after the clock's time, and it is strictly earlier
than every pending event under the (time, insertion-id) priority. -/
def Bounded {α : Type} (b : PendingEvent α) (c : SimulationClock α) : Prop :=
  b.eid < c.nextId ∧ b.time ≤ c.now ∧ ∀ x ∈ c.pending, evLt b x = true

/-- Modelled from the spec: all event creation inside the engine schedules at
a non-negative delay from the current time (next failure draw, maintenance
recurrence, equipment transitions), so scheduling never fails. -/
def scheduleDelay {α : Type} (c : SimulationClock α) (d : Nat) (p : α) :
    SimulationClock α :=
  ⟨c.now, c.nextId + 1, c.pending ++ [⟨c.now + d, c.nextId, p⟩]⟩

/-- Schedule a batch of delayed events in the given creation order. -/
def scheduleAll {α : Type} (c : SimulationClock α) : List (Nat × α) → SimulationClock α
  | [] => c
  | dp :: rest => scheduleAll (scheduleDelay c dp.1 dp.2) rest

/-- Modelled from the spec: the single-threaded cooperative event loop.  The
handler receives the world state, the current time and the payload, mutates the
world, and returns follow-up events as (delay, payload) pairs; the loop pops
the earliest pending event (FIFO on ties), stops past the horizon, and records
the executed events as the event log.  Fuel bounds the recursion. -/
def runLoop {α σ : Type} [DecidableEq α] (h : σ → Nat → α → σ × List (Nat × α))
    (horizon : Nat) : Nat → SimulationClock α → σ → List (PendingEvent α)
  | 0, _, _ => []
  | Nat.succ fuel, c, w =>
    match c.advance with
    | none => []
    | some ec =>
      if horizon < ec.1.time then []
      else
        ec.1 :: runLoop h horizon fuel
          (scheduleAll ec.2 (h w ec.1.time ec.1.payload).2)
          (h w ec.1.time ec.1.payload).1

/-- The clock at simulation start: time zero with the configured initial
events scheduled in creation order. -/
def initClock {α : Type} (cfg : List (Nat × α)) : SimulationClock α :=
  scheduleAll ⟨0, 0, []⟩ cfg

/-- Run the engine from a configuration, a horizon, a fuel bound and an
initial world state (which carries the random seed). -/
def runSim {α σ : Type} [DecidableEq α] (h : σ → Nat → α → σ × List (Nat × α))
    (cfg : List (Nat × α)) (horizon fuel : Nat) (w : σ) : List (PendingEvent α) :=
  runLoop h horizon fuel (initClock cfg) w

/-- Modelled from the spec: the closed set of servicing capability codes. -/
inductive Capability where
  | RMT | DRN | CTV | SCN | LCN | CAB | DSV | TOW | AHV
deriving DecidableEq, Repr

/-- Modelled from the spec: repair-request lifecycle states. -/
inductive ReqStatus where
  | Open | Assigned | InProgress | Complete
deriving DecidableEq, Repr

/-- Modelled from the spec: a repair request with its unique id, originating
subassembly, severity level, creation time, required capability, a flag for
whether the originating asset is transportable/in range (used only by TOW/AHV
matching), and lifecycle status. -/
structure RepairRequest where
  rid : Nat
  subId : Nat
  level : Nat
  ctime : Nat
  capability : Capability
  transportable : Bool
  status : ReqStatus
deriving DecidableEq, Repr

/-- Modelled from the spec: servicing equipment as needed by matching and the
RequestsThreshold strategy - a capability set and the dispatch threshold. -/
structure ServicingEquipment where
  capability : List Capability
  strategy_threshold : Nat
deriving DecidableEq, Repr

/-- Modelled from the spec: request priority - severity level descending,
creation time ascending, final ties broken by request id. -/
def higherPriority (a b : RepairRequest) : Bool :=
  decide (b.level < a.level) ||
    (decide (a.level = b.level) &&
      (decide (a.ctime < b.ctime) ||
        (decide (a.ctime = b.ctime) && decide (a.rid < b.rid))))

/-- The equipment's capability set contains the request's required capability. -/
def canServe (sv : ServicingEquipment) (r : RepairRequest) : Bool :=
  sv.capability.contains r.capability

/-- Modelled from the spec: a request qualifies for an equipment when it is
Open, its required capability is in the equipment's capability set, and, for
TOW/AHV capabilities, its asset is transportable/in range. -/
def eligible (sv : ServicingEquipment) (r : RepairRequest) : Bool :=
  decide (r.status = ReqStatus.Open) && canServe sv r &&
    (if r.capability = Capability.TOW ∨ r.capability = Capability.AHV then
      r.transportable else true)

/-- Modelled from the spec: match(equipment) returns the highest-priority Open
request whose required capability the equipment can serve (with the TOW/AHV
transportability condition), or none when no request qualifies. -/
def matchRequest (sv : ServicingEquipment) (q : List RepairRequest) :
    Option RepairRequest :=
  pickBest higherPriority (q.filter (eligible sv))

/-- Modelled from the spec: the full matching API - it returns the matched
request together with the (unchanged) queue state, because matching is a pure
query and marking Assigned is done separately by the dispatcher. -/
def matchQuery (sv : ServicingEquipment) (q : List RepairRequest) :
    Option RepairRequest × List RepairRequest :=
  (matchRequest sv q, q)

/-- Modelled from the spec: the dispatch-relevant equipment states - Idle, or
mobilized (covering the Mobilizing-through-Returning active phase of the
equipment sub-state-machine, which is what the dispatch strategy controls). -/
inductive EqState where
  | Idle | Mobilized
deriving DecidableEq, Repr

/-- Modelled from the spec: the RequestsThreshold strategy counts the Open
requests whose capability the equipment can serve. -/
def openMatchCount (sv : ServicingEquipment) (reqs : List RepairRequest) : Nat :=
  (reqs.filter (fun r => decide (r.status = ReqStatus.Open) && canServe sv r)).length

/-- Modelled from the spec: the RequestsThreshold dispatch check - from Idle,
mobilize once the count of matchable Open requests reaches the threshold; once
mobilized, stay mobilized until the queue of matchable requests is empty, then
return to Idle. -/
def requestsThresholdCheck (sv : ServicingEquipment) (st : EqState)
    (reqs : List RepairRequest) : EqState :=
  match st with
  | EqState.Idle =>
    if sv.strategy_threshold ≤ openMatchCount sv reqs then EqState.Mobilized
    else EqState.Idle
  | EqState.Mobilized =>
    if openMatchCount sv reqs = 0 then EqState.Idle else EqState.Mobilized

/-- Modelled from the spec: the request-queue events a RequestsThreshold
equipment reacts to - a request being created, or a request leaving the queue. -/
inductive RtEvent where
  | create (r : RepairRequest)
  | complete (rid : Nat)
deriving DecidableEq, Repr

/-- Modelled from the spec: one step of the RequestsThreshold equipment - the
queue mutation happens first and the dispatch check is evaluated at the same
instant on the resulting queue. -/
def rtStep (sv : ServicingEquipment) (s : EqState × List RepairRequest)
    (e : RtEvent) : EqState × List RepairRequest :=
  match e with
  | RtEvent.create r =>
    (requestsThresholdCheck sv s.1 (s.2 ++ [r]), s.2 ++ [r])
  | RtEvent.complete rid =>
    (requestsThresholdCheck sv s.1 (s.2.filter (fun r => r.rid != rid)),
      s.2.filter (fun r => r.rid != rid))

/-- Modelled from the spec: the windfarm-side engine state - the set of
existing subassembly ids and the live repair requests. -/
structure FarmState where
  subIds : List Nat
  requests : List RepairRequest
deriving DecidableEq, Repr

/-- A fresh request id: one past the largest id in use. -/
def nextRid (f : FarmState) : Nat :=
  (f.requests.map (fun r => r.rid)).foldr max 0 + 1

/-- Update the status of the request with the given id, only when it currently
has the expected status. -/
def setStatusIf (reqs : List RepairRequest) (rid : Nat) (old new : ReqStatus) :
    List RepairRequest :=
  reqs.map (fun r =>
    if r.rid = rid ∧ r.status = old then
      ⟨r.rid, r.subId, r.level, r.ctime, r.capability, r.transportable, new⟩
    else r)

/-- Whether some request on the given subassembly is already InProgress. -/
def subBusy (f : FarmState) (sid : Nat) : Bool :=
  f.requests.any (fun r => decide (r.subId = sid) && decide (r.status = ReqStatus.InProgress))

/-- Modelled from the spec: the request-lifecycle engine steps - a failure or
maintenance event creating an Open request on an existing subassembly, the
dispatcher assigning it, servicing starting (only one InProgress repair per
subassembly at a time), and completion destroying the request. -/
inductive EngineStep where
  | createRequest (sid lvl t : Nat) (cap : Capability)
  | assignRequest (rid : Nat)
  | startRepair (rid : Nat)
  | completeRepair (rid : Nat)
deriving DecidableEq, Repr

/-- Modelled from the spec: one engine step acting on the farm state.
Requests are only created for existing subassemblies (failure events originate
from a subassembly), a repair starts only when the request is Assigned and its
subassembly has no other InProgress repair, and completion removes the
request. -/
def engineStep (f : FarmState) (e : EngineStep) : FarmState :=
  match e with
  | EngineStep.createRequest sid lvl t cap =>
    if sid ∈ f.subIds then
      ⟨f.subIds, f.requests ++ [⟨nextRid f, sid, lvl, t, cap, false, ReqStatus.Open⟩]⟩
    else f
  | EngineStep.assignRequest rid =>
    ⟨f.subIds, setStatusIf f.requests rid ReqStatus.Open ReqStatus.Assigned⟩
  | EngineStep.startRepair rid =>
    match f.requests.find? (fun r => decide (r.rid = rid)) with
    | some r =>
      if r.status = ReqStatus.Assigned ∧ subBusy f r.subId = false then
        ⟨f.subIds, setStatusIf f.requests rid ReqStatus.Assigned ReqStatus.InProgress⟩
      else f
    | none => f
  | EngineStep.completeRepair rid =>
    ⟨f.subIds, f.requests.filter
      (fun r => !(decide (r.rid = rid) && decide (r.status = ReqStatus.InProgress)))⟩

/-- Request ids are pairwise distinct. -/
def ridsNodup (f : FarmState) : Prop :=
  (f.requests.map (fun r => r.rid)).Nodup

/-- Every Open or Assigned request references a still-existing subassembly. -/
def refsExist (f : FarmState) : Prop :=
  ∀ r ∈ f.requests,
    (r.status = ReqStatus.Open ∨ r.status = ReqStatus.Assigned) → r.subId ∈ f.subIds

/-- No subassembly is InProgress for two distinct requests at the same time. -/
def oneInProgress (f : FarmState) : Prop :=
  ∀ r1 ∈ f.requests, ∀ r2 ∈ f.requests,
    r1.status = ReqStatus.InProgress → r2.status = ReqStatus.InProgress →
      r1.subId = r2.subId → r1 = r2

/-- The farm-state invariant of the spec (section 3), together with the
auxiliary uniqueness of request ids that the engine maintains. -/
def FarmInv (f : FarmState) : Prop :=
  ridsNodup f ∧ refsExist f ∧ oneInProgress f

/-- Modelled from the spec: the Port - a finite capacity of tow berths/tugs, a
FIFO of waiting tow-request ids, and the requests currently in service. -/
structure Port where
  capacity : Nat
  waiting : List Nat
  inService : List Nat
deriving DecidableEq, Repr

/-- Admit waiting requests into service from the head of the FIFO while there
is spare capacity. -/
def pumpAux (cap : Nat) : List Nat → List Nat → List Nat × List Nat
  | inSvc, [] => (inSvc, [])
  | inSvc, r :: rs =>
    if inSvc.length < cap then pumpAux cap (inSvc ++ [r]) rs else (inSvc, r :: rs)

/-- Move waiting requests into service up to the port's capacity. -/
def pump (p : Port) : Port :=
  ⟨p.capacity, (pumpAux p.capacity p.inService p.waiting).2,
    (pumpAux p.capacity p.inService p.waiting).1⟩

/-- Modelled from the spec: the port-level events - a tow request arriving, or
a tow cycle finishing (the tug returns to Idle and frees its slot). -/
inductive PortEvent where
  | arrive (rid : Nat)
  | finish (rid : Nat)
deriving DecidableEq, Repr

/-- Modelled from the spec: one port step.  An arriving request joins the tail
of the FIFO; a finishing request frees its service slot; in both cases waiting
requests are then admitted from the head of the FIFO up to capacity.  Requests
beyond capacity simply wait - there is no overflow error path. -/
def portStep (p : Port) (e : PortEvent) : Port :=
  match e with
  | PortEvent.arrive rid => pump ⟨p.capacity, p.waiting ++ [rid], p.inService⟩
  | PortEvent.finish rid =>
    pump ⟨p.capacity, p.waiting, p.inService.filter (fun x => x != rid)⟩

/-- The port at simulation start: empty FIFO, nothing in service. -/
def initPort (cap : Nat) : Port := ⟨cap, [], []⟩

/-- The port states reachable from the initial port by any event sequence. -/
inductive PortReachable (cap : Nat) : Port → Prop where
  | init : PortReachable cap (initPort cap)
  | step (p : Port) (e : PortEvent) : PortReachable cap p → PortReachable cap (portStep p e)

/-- Modelled from the spec: a failure model - Weibull shape/scale, repair
time, materials cost, required capability, operating-level reduction, and
severity level. -/
structure FailureModel where
  scale : ℚ
  shape : ℚ
  time : ℚ
  materials : ℚ
  service_equipment : List Capability
  operation_reduction : ℚ
  level : Nat
deriving DecidableEq, Repr

/-- Modelled from the spec: construction-time validation - negative shape or
scale is a fatal NumericalError; zero shape or scale is a valid "never fails"
sentinel and is accepted. -/
def validateFailureModel (fm : FailureModel) : Except SimError FailureModel :=
  if fm.shape < 0 ∨ fm.scale < 0 then Except.error SimError.NumericalError
  else Except.ok fm

/-- Modelled from the spec: the next-failure draw - t_next = now + sample for
a positive Weibull model, and no future failure event (none) when shape or
scale is 0.  The Weibull sample value itself is abstracted as an input, since
no claim depends on the shape of the distribution. -/
def nextFailureTime (fm : FailureModel) (now sample : ℚ) : Option ℚ :=
  if fm.shape = 0 ∨ fm.scale = 0 then none else some (now + sample)

/-- Modelled from the spec: the failure events a model generates over a
horizon - draw the next failure time; if there is one inside the horizon the
failure fires and, after the repair, the next draw is taken.  Fuel bounds the
recursion; the sample stream stands for the seeded random generator. -/
def failureTimes (fm : FailureModel) (samples : Nat → ℚ) (horizon : ℚ) :
    Nat → Nat → ℚ → List ℚ
  | 0, _, _ => []
  | Nat.succ fuel, i, now =>
    match nextFailureTime fm now (samples i) with
    | none => []
    | some t =>
      if horizon < t then []
      else t :: failureTimes fm samples horizon fuel (i + 1) (t + fm.time)

/-- Modelled from the spec: the simulation configuration fields the boundary
claims need - the library pointer, workday window, and start/end years. -/
structure Config where
  name : String
  library : String
  workday_start : Nat
  workday_end : Nat
  start_year : Nat
  end_year : Nat
deriving DecidableEq, Repr

/-- Modelled from the spec: the full configured run length in hours - the
whole-year span from the start year through the end year. -/
def Config.maxRunTime (c : Config) : Nat :=
  (c.end_year + 1 - c.start_year) * 8760

/-- Modelled from the spec: construction-time configuration validation,
fatal before any event runs. -/
def validateConfig (c : Config) : Except SimError Config :=
  if c.start_year ≤ c.end_year ∧ c.workday_start < c.workday_end then Except.ok c
  else Except.error SimError.ConfigurationError

/-- Modelled from the spec: the aggregate metrics computed from the event log
when a run completes. -/
structure Metrics where
  eventCount : Nat
  lastTime : Nat
deriving DecidableEq, Repr

/-- Compute the metrics of an event log. -/
def computeMetrics (log : List (PendingEvent Nat)) : Metrics :=
  ⟨log.length, (log.map (fun e => e.time)).foldr max 0⟩

/-- Modelled from the spec: the Simulation object at the run boundary - its
configuration, random seed, event log, and the metrics interface, which is
only populated once a run completes. -/
structure Simulation where
  config : Config
  seed : Nat
  log : List (PendingEvent Nat)
  metrics : Option Metrics
deriving DecidableEq, Repr

/-- Modelled from the spec: a deterministic recurring-process handler -
every executed event reschedules itself one maintenance period later
(maintenance tasks reschedule at now + frequency). -/
def maintenanceHandler : Nat → Nat → Nat → Nat × List (Nat × Nat) :=
  fun w _ p => (w, [(8760, p)])

/-- Modelled from the spec: the initial events of a configured model - each
process enters the queue at time zero. -/
def initialEvents (_ : Config) : List (Nat × Nat) := [(0, 0)]

/-- Modelled from the spec: the engine run producing the event log for a
configuration, seed and horizon. -/
def engineRun (c : Config) (seed horizon : Nat) : List (PendingEvent Nat) :=
  runSim maintenanceHandler (initialEvents c) horizon (horizon + 1) seed

/-- Modelled from the spec: the run boundary call.  With no explicit bound the
run lasts for the full configured length, and on completion the metrics
interface is loaded from the event log with no further setup calls. -/
def Simulation.run (s : Simulation) (upTo : Option Nat) : Simulation :=
  ⟨s.config, s.seed,
    engineRun s.config s.seed (upTo.getD s.config.maxRunTime),
    some (computeMetrics (engineRun s.config s.seed (upTo.getD s.config.maxRunTime)))⟩

/-- Modelled from the spec: the run entry point as a fallible boundary call.
The core performs no divisibility or truncation check on the horizon, so the
call always succeeds. -/
def Simulation.runE (s : Simulation) (upTo : Option Nat) :
    Except SimError Simulation :=
  Except.ok (s.run upTo)

/-- Modelled from the spec and the tutorial: the external SAM financial
post-processing collaborator, which fails when the processed run length is not
divisible by 8760 hours (a PySAM requirement, outside the core). -/
def samPostProcess (s : Simulation) (hours : Nat) : Except SimError Metrics :=
  if hours % 8760 = 0 then Except.ok (computeMetrics s.log)
  else Except.error SimError.SAMHorizonMismatch

/-- Modelled from the spec: a data library - its path and the configuration
files it holds, keyed by file name. -/
structure SimLibrary where
  path : String
  files : List (String × Config)
deriving DecidableEq, Repr

/-- Modelled from the spec: load a configuration file from a library. -/
def load_yaml (lib : SimLibrary) (file : String) : Option Config :=
  (lib.files.find? (fun kv => kv.1 == file)).map (fun kv => kv.2)

/-- Modelled from the spec: Simulation.from_config - validate the given
configuration and build the simulation from it. -/
def Simulation.from_config (cfg : Config) (seed : Nat) :
    Except SimError Simulation :=
  match validateConfig cfg with
  | Except.error e => Except.error e
  | Except.ok c => Except.ok ⟨c, seed, [], none⟩

/-- Modelled from the spec: the standard Simulation(library_path, config)
initialization - load the named configuration file from the library, require
its library pointer to match the provided library, and then construct exactly
as Simulation.from_config does. -/
def Simulation.ofLibrary (lib : SimLibrary) (file : String) (seed : Nat) :
    Except SimError Simulation :=
  match load_yaml lib file with
  | none => Except.error SimError.ConfigurationError
  | some cfg =>
    if cfg.library = lib.path then Simulation.from_config cfg seed
    else Except.error SimError.ConfigurationError

/-! Generic lemmas about the argmax fold used by the clock and the matcher. -/

theorem foldBest_mem {α : Type} (better : α → α → Bool) :
    ∀ (xs : List α) (a : α), foldBest better a xs = a ∨ foldBest better a xs ∈ xs := by
  intro xs
  induction xs with
  | nil => intro a; exact Or.inl rfl
  | cons z zs ih =>
    intro a
    show foldBest better (if better z a then z else a) zs = a ∨
      foldBest better (if better z a then z else a) zs ∈ z :: zs
    rcases ih (if better z a then z else a) with h | h
    · rw [h]
      split
      · exact Or.inr (List.mem_cons_self z zs)
      · exact Or.inl rfl
    · exact Or.inr (List.mem_cons_of_mem z h)

theorem foldBest_not_better {α : Type} (better : α → α → Bool)
    (htrans : ∀ a b c, better a b = true → better b c = true → better a c = true)
    (hirr : ∀ a, better a a = false) :
    ∀ (xs : List α) (a : α),
      (∀ y, better y a = false → better y (foldBest better a xs) = false) ∧
      (∀ y ∈ xs, better y (foldBest better a xs) = false) := by
  intro xs
  induction xs with
  | nil =>
    intro a
    exact ⟨fun y h => h, fun y hy => absurd hy (List.not_mem_nil y)⟩
  | cons z zs ih =>
    intro a
    show (∀ y, better y a = false →
        better y (foldBest better (if better z a then z else a) zs) = false) ∧
      (∀ y ∈ z :: zs, better y (foldBest better (if better z a then z else a) zs) = false)
    constructor
    · intro y hy
      by_cases hb : better z a = true
      · rw [if_pos hb]
        apply (ih z).1
        cases hyz : better y z with
        | false => rfl
        | true =>
          exact absurd (htrans y z a hyz hb) (by rw [hy]; exact Bool.false_ne_true)
      · rw [if_neg hb]
        exact (ih a).1 y hy
    · intro y hmem
      rcases List.mem_cons.mp hmem with rfl | hzs
      · by_cases hb : better y a = true
        · rw [if_pos hb]
          exact (ih y).1 y (hirr y)
        · rw [if_neg hb]
          exact (ih a).1 y (Bool.eq_false_iff.mpr hb)
      · exact (ih (if better z a then z else a)).2 y hzs

theorem pickBest_mem {α : Type} (better : α → α → Bool) (l : List α) (m : α)
    (h : pickBest better l = some m) : m ∈ l := by
  cases l with
  | nil => simp [pickBest] at h
  | cons x xs =>
    have hm : foldBest better x xs = m := by
      simpa [pickBest] using h
    rcases foldBest_mem better xs x with h1 | h1
    · rw [← hm, h1]; exact List.mem_cons_self x xs
    · rw [← hm]; exact List.mem_cons_of_mem x h1

theorem pickBest_best {α : Type} (better : α → α → Bool)
    (htrans : ∀ a b c, better a b = true → better b c = true → better a c = true)
    (hirr : ∀ a, better a a = false) (l : List α) (m : α)
    (h : pickBest better l = some m) : ∀ y ∈ l, better y m = false := by
  cases l with
  | nil => simp [pickBest] at h
  | cons x xs =>
    have hm : foldBest better x xs = m := by
      simpa [pickBest] using h
    intro y hy
    rcases List.mem_cons.mp hy with rfl | hyx
    · rw [← hm]
      exact (foldBest_not_better better htrans hirr xs y).1 y (hirr y)
    · rw [← hm]
      exact (foldBest_not_better better htrans hirr xs x).2 y hyx

theorem pickBest_none_iff {α : Type} (better : α → α → Bool) (l : List α) :
    pickBest better l = none ↔ l = [] := by
  cases l <;> simp [pickBest]

/-! Properties of the clock's event priority order. -/

theorem evLt_iff {α : Type} (a b : PendingEvent α) :
    evLt a b = true ↔ a.time < b.time ∨ (a.time = b.time ∧ a.eid < b.eid) := by
  simp [evLt]

theorem evLt_trans {α : Type} (a b c : PendingEvent α)
    (h1 : evLt a b = true) (h2 : evLt b c = true) : evLt a c = true := by
  rw [evLt_iff] at h1 h2 ⊢
  omega

theorem evLt_irrefl {α : Type} (a : PendingEvent α) : evLt a a = false := by
  rw [Bool.eq_false_iff]
  intro h
  rw [evLt_iff] at h
  omega

theorem evLt_of_not_of_ne {α : Type} (a b : PendingEvent α)
    (h : evLt a b = false) (hne : a.eid ≠ b.eid) : evLt b a = true := by
  have h' : ¬ (a.time < b.time ∨ (a.time = b.time ∧ a.eid < b.eid)) := by
    intro hc
    rw [← evLt_iff] at hc
    rw [hc] at h
    exact Bool.noConfusion h
  rw [evLt_iff]
  omega

/-! Properties of the repair-request priority order. -/

theorem higherPriority_iff (a b : RepairRequest) :
    higherPriority a b = true ↔
      b.level < a.level ∨ (a.level = b.level ∧
        (a.ctime < b.ctime ∨ (a.ctime = b.ctime ∧ a.rid < b.rid))) := by
  simp [higherPriority]

theorem higherPriority_trans (a b c : RepairRequest)
    (h1 : higherPriority a b = true) (h2 : higherPriority b c = true) :
    higherPriority a c = true := by
  rw [higherPriority_iff] at h1 h2 ⊢
  omega

theorem higherPriority_irrefl (a : RepairRequest) : higherPriority a a = false := by
  rw [Bool.eq_false_iff]
  intro h
  rw [higherPriority_iff] at h
  omega

/-! Clock lemmas: advance pops the (time, insertion-id) minimum, and the
well-formedness invariant together with strict lower bounds survives every
engine activity. -/

theorem advance_none_iff {α : Type} [DecidableEq α] (c : SimulationClock α) :
    c.advance = none ↔ c.pending = [] := by
  rw [← pickBest_none_iff evLt c.pending]
  unfold SimulationClock.advance
  cases pickBest evLt c.pending <;> simp

theorem advance_some_spec {α : Type} [DecidableEq α] (c : SimulationClock α)
    (e : PendingEvent α) (c' : SimulationClock α) (h : c.advance = some (e, c')) :
    e ∈ c.pending ∧ (∀ x ∈ c.pending, evLt x e = false) ∧
      c'.now = e.time ∧ c'.nextId = c.nextId ∧ c'.pending = c.pending.erase e := by
  unfold SimulationClock.advance at h
  cases hp : pickBest evLt c.pending with
  | none => rw [hp] at h; exact absurd h (by simp)
  | some m =>
    rw [hp] at h
    have hpair := Option.some.inj h
    have h1 : m = e := congrArg Prod.fst hpair
    have h2 : (⟨m.time, c.nextId, c.pending.erase m⟩ : SimulationClock α) = c' :=
      congrArg Prod.snd hpair
    subst h1
    subst h2
    exact ⟨pickBest_mem evLt c.pending m hp,
      pickBest_best evLt evLt_trans evLt_irrefl c.pending m hp, rfl, rfl, rfl⟩

theorem advance_strict {α : Type} [DecidableEq α] (c : SimulationClock α)
    (hinv : ClockInv c) (e : PendingEvent α) (c' : SimulationClock α)
    (h : c.advance = some (e, c')) : ClockInv c' ∧ Bounded e c' := by
  obtain ⟨hmem, hmax, hnow, hnid, hpend⟩ := advance_some_spec c e c' h
  obtain ⟨hfresh, hnd⟩ := hinv
  have hndl : c.pending.Nodup := hnd.of_map
  have hette : ∀ x ∈ c.pending, e.time ≤ x.time := by
    intro x hx
    have hfx := hmax x hx
    have : ¬ (x.time < e.time ∨ (x.time = e.time ∧ x.eid < e.eid)) := by
      intro hc
      rw [← evLt_iff] at hc
      rw [hc] at hfx
      exact Bool.noConfusion hfx
    omega
  have hmemsub : ∀ x ∈ c'.pending, x ∈ c.pending := by
    intro x hx
    rw [hpend] at hx
    exact List.mem_of_mem_erase hx
  constructor
  · constructor
    · intro x hx
      have hx' := hmemsub x hx
      refine ⟨?_, ?_⟩
      · rw [hnow]; exact hette x hx'
      · rw [hnid]; exact (hfresh x hx').2
    · rw [hpend]
      exact hnd.sublist ((c.pending.erase_sublist e).map (fun x => x.eid))
  · refine ⟨?_, ?_, ?_⟩
    · rw [hnid]; exact (hfresh e hmem).2
    · rw [hnow]
    · intro x hx
      have hx' := hmemsub x hx
      have hxe : x ≠ e := by
        rw [hpend] at hx
        exact ((List.Nodup.mem_erase_iff hndl).mp hx).1
      have hne : x.eid ≠ e.eid := by
        intro hc
        exact hxe (List.inj_on_of_nodup_map hnd hx' hmem hc)
      exact evLt_of_not_of_ne x e (hmax x hx') hne

theorem clockInv_scheduleDelay {α : Type} (c : SimulationClock α) (d : Nat) (p : α)
    (h : ClockInv c) : ClockInv (scheduleDelay c d p) := by
  obtain ⟨h1, h2⟩ := h
  constructor
  · intro x hx
    have hx' : x ∈ c.pending ++ [(⟨c.now + d, c.nextId, p⟩ : PendingEvent α)] := hx
    rcases List.mem_append.mp hx' with hm | hm
    · obtain ⟨ha, hb⟩ := h1 x hm
      exact ⟨ha, Nat.lt_succ_of_lt hb⟩
    · have hxx : x = ⟨c.now + d, c.nextId, p⟩ := by simpa using hm
      subst hxx
      exact ⟨Nat.le_add_right _ _, Nat.lt_succ_self _⟩
  · have hmap : (scheduleDelay c d p).pending.map (fun x => x.eid) =
        c.pending.map (fun x => x.eid) ++ [c.nextId] := by
      show (c.pending ++ [(⟨c.now + d, c.nextId, p⟩ : PendingEvent α)]).map _ = _
      simp
    rw [hmap]
    refine List.nodup_append.mpr ⟨h2, List.nodup_singleton _, ?_⟩
    intro a ha hb
    rcases List.mem_map.mp ha with ⟨x, hx, rfl⟩
    have hlt := (h1 x hx).2
    have hb' : x.eid = c.nextId := by simpa using hb
    omega

theorem clockInv_scheduleAll {α : Type} :
    ∀ (l : List (Nat × α)) (c : SimulationClock α),
      ClockInv c → ClockInv (scheduleAll c l)
  | [], _, h => h
  | dp :: rest, c, h =>
    clockInv_scheduleAll rest _ (clockInv_scheduleDelay c dp.1 dp.2 h)

theorem bounded_scheduleDelay {α : Type} (b : PendingEvent α) (c : SimulationClock α)
    (d : Nat) (p : α) (h : Bounded b c) : Bounded b (scheduleDelay c d p) := by
  obtain ⟨h1, h2, h3⟩ := h
  refine ⟨Nat.lt_succ_of_lt h1, h2, ?_⟩
  intro x hx
  have hx' : x ∈ c.pending ++ [(⟨c.now + d, c.nextId, p⟩ : PendingEvent α)] := hx
  rcases List.mem_append.mp hx' with hm | hm
  · exact h3 x hm
  · have hxx : x = ⟨c.now + d, c.nextId, p⟩ := by simpa using hm
    subst hxx
    rw [evLt_iff]
    show b.time < c.now + d ∨ (b.time = c.now + d ∧ b.eid < c.nextId)
    omega

theorem bounded_scheduleAll {α : Type} (b : PendingEvent α) :
    ∀ (l : List (Nat × α)) (c : SimulationClock α),
      Bounded b c → Bounded b (scheduleAll c l)
  | [], _, h => h
  | dp :: rest, c, h =>
    bounded_scheduleAll b rest _ (bounded_scheduleDelay b c dp.1 dp.2 h)

theorem bounded_advance {α : Type} [DecidableEq α] (b : PendingEvent α)
    (c : SimulationClock α) (e : PendingEvent α) (c' : SimulationClock α)
    (hB : Bounded b c) (h : c.advance = some (e, c')) :
    Bounded b c' ∧ evLt b e = true := by
  obtain ⟨hmem, hmax, hnow, hnid, hpend⟩ := advance_some_spec c e c' h
  obtain ⟨h1, h2, h3⟩ := hB
  have hbe := h3 e hmem
  refine ⟨⟨by omega, ?_, ?_⟩, hbe⟩
  · rw [hnow]
    have := (evLt_iff b e).mp hbe
    omega
  · intro x hx
    rw [hpend] at hx
    exact h3 x (List.mem_of_mem_erase hx)

/-! Run-loop lemmas: unfolding equations, the lower-bound property, and the
strict (time, insertion-id) ordering of the produced event log. -/

theorem runLoop_zero {α σ : Type} [DecidableEq α] (h : σ → Nat → α → σ × List (Nat × α))
    (horizon : Nat) (c : SimulationClock α) (w : σ) :
    runLoop h horizon 0 c w = [] := rfl

theorem runLoop_succ_none {α σ : Type} [DecidableEq α]
    (h : σ → Nat → α → σ × List (Nat × α)) (horizon n : Nat)
    (c : SimulationClock α) (w : σ) (hadv : c.advance = none) :
    runLoop h horizon (n + 1) c w = [] := by
  simp [runLoop, hadv]

theorem runLoop_succ_stop {α σ : Type} [DecidableEq α]
    (h : σ → Nat → α → σ × List (Nat × α)) (horizon n : Nat)
    (c : SimulationClock α) (w : σ) (ec : PendingEvent α × SimulationClock α)
    (hadv : c.advance = some ec) (hhor : horizon < ec.1.time) :
    runLoop h horizon (n + 1) c w = [] := by
  simp [runLoop, hadv, hhor]

theorem runLoop_succ_go {α σ : Type} [DecidableEq α]
    (h : σ → Nat → α → σ × List (Nat × α)) (horizon n : Nat)
    (c : SimulationClock α) (w : σ) (ec : PendingEvent α × SimulationClock α)
    (hadv : c.advance = some ec) (hhor : ¬ horizon < ec.1.time) :
    runLoop h horizon (n + 1) c w =
      ec.1 :: runLoop h horizon n
        (scheduleAll ec.2 (h w ec.1.time ec.1.payload).2)
        (h w ec.1.time ec.1.payload).1 := by
  simp [runLoop, hadv, hhor]

theorem runLoop_lower {α σ : Type} [DecidableEq α]
    (h : σ → Nat → α → σ × List (Nat × α)) (horizon : Nat) :
    ∀ (fuel : Nat) (c : SimulationClock α) (w : σ) (b : PendingEvent α),
      Bounded b c → ∀ z ∈ runLoop h horizon fuel c w, evLt b z = true := by
  intro fuel
  induction fuel with
  | zero =>
    intro c w b _ z hz
    rw [runLoop_zero] at hz
    exact absurd hz (List.not_mem_nil z)
  | succ n ih =>
    intro c w b hB z hz
    cases hadv : c.advance with
    | none =>
      rw [runLoop_succ_none h horizon n c w hadv] at hz
      exact absurd hz (List.not_mem_nil z)
    | some ec =>
      by_cases hhor : horizon < ec.1.time
      · rw [runLoop_succ_stop h horizon n c w ec hadv hhor] at hz
        exact absurd hz (List.not_mem_nil z)
      · rw [runLoop_succ_go h horizon n c w ec hadv hhor] at hz
        obtain ⟨hB', hbe⟩ := bounded_advance b c ec.1 ec.2 hB (by rw [hadv])
        rcases List.mem_cons.mp hz with rfl | hz'
        · exact hbe
        · exact ih _ _ b (bounded_scheduleAll b _ _ hB') z hz'

theorem runLoop_pairwise {α σ : Type} [DecidableEq α]
    (h : σ → Nat → α → σ × List (Nat × α)) (horizon : Nat) :
    ∀ (fuel : Nat) (c : SimulationClock α) (w : σ), ClockInv c →
      List.Pairwise (fun x y => evLt x y = true) (runLoop h horizon fuel c w) := by
  intro fuel
  induction fuel with
  | zero =>
    intro c w _
    rw [runLoop_zero]
    exact List.Pairwise.nil
  | succ n ih =>
    intro c w hinv
    cases hadv : c.advance with
    | none =>
      rw [runLoop_succ_none h horizon n c w hadv]
      exact List.Pairwise.nil
    | some ec =>
      by_cases hhor : horizon < ec.1.time
      · rw [runLoop_succ_stop h horizon n c w ec hadv hhor]
        exact List.Pairwise.nil
      · rw [runLoop_succ_go h horizon n c w ec hadv hhor]
        obtain ⟨hinv', hB⟩ := advance_strict c hinv ec.1 ec.2 (by rw [hadv])
        refine List.Pairwise.cons ?_ (ih _ _ (clockInv_scheduleAll _ _ hinv'))
        intro z hz
        exact runLoop_lower h horizon n _ _ ec.1 (bounded_scheduleAll ec.1 _ _ hB) z hz

theorem clockInv_empty {α : Type} :
    ClockInv (⟨0, 0, []⟩ : SimulationClock α) := by
  constructor
  · intro x hx
    exact absurd hx (List.not_mem_nil x)
  · exact List.nodup_nil

theorem clockInv_initClock {α : Type} (cfg : List (Nat × α)) :
    ClockInv (initClock cfg) :=
  clockInv_scheduleAll cfg _ clockInv_empty

/-! Claim theorems. -/

/-- C1: Determinism of the engine.  For every configuration, horizon, fuel
bound and fixed random seed (initial world state), running the simulation twice
produces identical event logs, and the executed log is strictly ordered by
(time, insertion id): events scheduled at the same timestamp always execute in
their insertion (creation) order, and this order - being a function of the
inputs alone - is identical across the two runs. -/
theorem engine_run_deterministic_and_insertion_ordered {α σ : Type} [DecidableEq α]
    (h : σ → Nat → α → σ × List (Nat × α)) (cfg : List (Nat × α))
    (horizon fuel : Nat) (seed1 seed2 : σ) (hseed : seed1 = seed2) :
    runSim h cfg horizon fuel seed1 = runSim h cfg horizon fuel seed2 ∧
    List.Pairwise (fun x y => evLt x y = true) (runSim h cfg horizon fuel seed1) := by
  subst hseed
  exact ⟨rfl, runLoop_pairwise h horizon fuel (initClock cfg) seed1 (clockInv_initClock cfg)⟩

/-- Witness for C1 at a concrete configuration: two events created at time 0,
a handler that keeps rescheduling, seed 0 twice. -/
theorem engine_run_deterministic_witness :
    (0 : Nat) = 0 ∧
    (runSim (fun (w : Nat) (_ : Nat) (p : Nat) => (w, [(5, p + 1)])) [(0, 0), (0, 1)] 10 6 0 =
        runSim (fun (w : Nat) (_ : Nat) (p : Nat) => (w, [(5, p + 1)])) [(0, 0), (0, 1)] 10 6 0 ∧
      List.Pairwise (fun x y => evLt x y = true)
        (runSim (fun (w : Nat) (_ : Nat) (p : Nat) => (w, [(5, p + 1)])) [(0, 0), (0, 1)] 10 6 0)) :=
  ⟨rfl, engine_run_deterministic_and_insertion_ordered
    (fun (w : Nat) (_ : Nat) (p : Nat) => (w, [(5, p + 1)])) [(0, 0), (0, 1)] 10 6 0 0 rfl⟩

/-- C2: the SimulationClock contract.  schedule(time, event) fails with
InvalidTimeError exactly when time is before the clock, and otherwise inserts
the event with the next insertion-order id; advance() returns none exactly on
an empty queue, and otherwise removes and returns a pending event that no other
pending event precedes in the (time, insertion-id) priority - earliest
scheduled time, equal-time ties broken FIFO by insertion order; cancel(id)
removes the still-pending event with that id and keeps every other pending
event. -/
theorem simulationClock_contract {α : Type} [DecidableEq α] (c : SimulationClock α)
    (t : Nat) (p : α) (i : Nat) :
    (c.schedule t p = Except.error SimError.InvalidTimeError ↔ t < c.now) ∧
    (c.now ≤ t → c.schedule t p =
      Except.ok ⟨c.now, c.nextId + 1, c.pending ++ [⟨t, c.nextId, p⟩]⟩) ∧
    (c.advance = none ↔ c.pending = []) ∧
    (∀ e c', c.advance = some (e, c') →
      e ∈ c.pending ∧ (∀ x ∈ c.pending, evLt x e = false) ∧
        c'.pending = c.pending.erase e) ∧
    (∀ x ∈ (c.cancel i).pending, x.eid ≠ i) ∧
    (∀ x ∈ c.pending, x.eid ≠ i → x ∈ (c.cancel i).pending) := by
  refine ⟨?_, ?_, advance_none_iff c, ?_, ?_, ?_⟩
  · constructor
    · intro h
      by_cases hlt : t < c.now
      · exact hlt
      · simp only [SimulationClock.schedule, if_neg hlt] at h
        exact absurd h (by simp)
    · intro hlt
      simp only [SimulationClock.schedule, if_pos hlt]
  · intro hle
    have hlt : ¬ t < c.now := Nat.not_lt.mpr hle
    simp only [SimulationClock.schedule, if_neg hlt]
  · intro e c' hadv
    obtain ⟨hmem, hmax, _, _, hpend⟩ := advance_some_spec c e c' hadv
    exact ⟨hmem, hmax, hpend⟩
  · intro x hx
    have hx' : x ∈ c.pending.filter (fun y => y.eid != i) := hx
    have := (List.mem_filter.mp hx').2
    simpa using this
  · intro x hx hne
    show x ∈ c.pending.filter (fun y => y.eid != i)
    exact List.mem_filter.mpr ⟨hx, by simpa using hne⟩

/-- C3: a FailureModel with Weibull shape 0 or scale 0 is the valid
"never fails" sentinel - it is accepted at construction (not an error), every
next-failure draw yields no future failure event, and no failure event for the
model is generated over any simulation horizon, for any sample stream. -/
theorem zero_shape_or_scale_never_fails (fm : FailureModel)
    (hshape : 0 ≤ fm.shape) (hscale : 0 ≤ fm.scale)
    (hz : fm.shape = 0 ∨ fm.scale = 0) :
    validateFailureModel fm = Except.ok fm ∧
    (∀ now sample : ℚ, nextFailureTime fm now sample = none) ∧
    (∀ (samples : Nat → ℚ) (horizon : ℚ) (fuel i : Nat) (now : ℚ),
      failureTimes fm samples horizon fuel i now = []) := by
  have hdraw : ∀ now sample : ℚ, nextFailureTime fm now sample = none := by
    intro now sample
    simp only [nextFailureTime, if_pos hz]
  refine ⟨?_, hdraw, ?_⟩
  · have hneg : ¬ (fm.shape < 0 ∨ fm.scale < 0) := by
      push_neg
      exact ⟨hshape, hscale⟩
    simp only [validateFailureModel, if_neg hneg]
  · intro samples horizon fuel i now
    cases fuel with
    | zero => rfl
    | succ n =>
      show (match nextFailureTime fm now (samples i) with
        | none => []
        | some t =>
          if horizon < t then []
          else t :: failureTimes fm samples horizon n (i + 1) (t + fm.time)) = []
      rw [hdraw]

/-- Witness for C3: the tutorial's transformer failure model with
scale 0 and shape 0 never fails. -/
theorem zero_shape_or_scale_never_fails_witness :
    (0 ≤ (0 : ℚ) ∧ 0 ≤ (0 : ℚ) ∧ ((0 : ℚ) = 0 ∨ (0 : ℚ) = 0)) ∧
    (validateFailureModel ⟨0, 0, 0, 0, [Capability.CTV], 0, 1⟩ =
        Except.ok ⟨0, 0, 0, 0, [Capability.CTV], 0, 1⟩ ∧
      (∀ now sample : ℚ,
        nextFailureTime ⟨0, 0, 0, 0, [Capability.CTV], 0, 1⟩ now sample = none) ∧
      (∀ (samples : Nat → ℚ) (horizon : ℚ) (fuel i : Nat) (now : ℚ),
        failureTimes ⟨0, 0, 0, 0, [Capability.CTV], 0, 1⟩ samples horizon fuel i now = [])) :=
  ⟨⟨le_refl 0, le_refl 0, Or.inl rfl⟩,
    zero_shape_or_scale_never_fails ⟨0, 0, 0, 0, [Capability.CTV], 0, 1⟩
      (le_refl 0) (le_refl 0) (Or.inl rfl)⟩

/-- C4: a RequestsThreshold equipment with strategy_threshold = 3 never
transitions Idle to Mobilized while fewer than 3 matchable Open requests
exist, mobilizes at the instant the 3rd qualifying request is created, and
once mobilized stays mobilized until its queue of matchable requests is empty,
at which point it returns to Idle. -/
theorem requestsThreshold_dispatch (sv : ServicingEquipment)
    (hthr : sv.strategy_threshold = 3) :
    (∀ (reqs : List RepairRequest) (e : RtEvent),
      (rtStep sv (EqState.Idle, reqs) e).1 = EqState.Mobilized →
        3 ≤ openMatchCount sv (rtStep sv (EqState.Idle, reqs) e).2) ∧
    (∀ (reqs : List RepairRequest) (r : RepairRequest),
      openMatchCount sv reqs = 2 → r.status = ReqStatus.Open → canServe sv r = true →
        (rtStep sv (EqState.Idle, reqs) (RtEvent.create r)).1 = EqState.Mobilized) ∧
    (∀ (reqs : List RepairRequest) (e : RtEvent),
      (rtStep sv (EqState.Mobilized, reqs) e).1 = EqState.Idle →
        openMatchCount sv (rtStep sv (EqState.Mobilized, reqs) e).2 = 0) ∧
    (∀ (reqs : List RepairRequest) (e : RtEvent),
      openMatchCount sv (rtStep sv (EqState.Mobilized, reqs) e).2 ≠ 0 →
        (rtStep sv (EqState.Mobilized, reqs) e).1 = EqState.Mobilized) := by
  have hidle : ∀ reqs' : List RepairRequest,
      requestsThresholdCheck sv EqState.Idle reqs' = EqState.Mobilized →
        3 ≤ openMatchCount sv reqs' := by
    intro reqs' h
    by_cases hc : sv.strategy_threshold ≤ openMatchCount sv reqs'
    · rw [hthr] at hc; exact hc
    · simp only [requestsThresholdCheck, if_neg hc] at h
      exact absurd h (by decide)
  have hmob : ∀ reqs' : List RepairRequest,
      requestsThresholdCheck sv EqState.Mobilized reqs' = EqState.Idle →
        openMatchCount sv reqs' = 0 := by
    intro reqs' h
    by_cases hc : openMatchCount sv reqs' = 0
    · exact hc
    · simp only [requestsThresholdCheck, if_neg hc] at h
      exact absurd h (by decide)
  have hmob2 : ∀ reqs' : List RepairRequest,
      openMatchCount sv reqs' ≠ 0 →
        requestsThresholdCheck sv EqState.Mobilized reqs' = EqState.Mobilized := by
    intro reqs' h
    simp only [requestsThresholdCheck, if_neg h]
  refine ⟨?_, ?_, ?_, ?_⟩
  · intro reqs e h
    cases e with
    | create r => exact hidle _ h
    | complete rid => exact hidle _ h
  · intro reqs r h2 hopen hserve
    have hsingle : (([r] : List RepairRequest).filter
        (fun x => decide (x.status = ReqStatus.Open) && canServe sv x)).length = 1 := by
      simp [hopen, hserve]
    have hcount : openMatchCount sv (reqs ++ [r]) = openMatchCount sv reqs + 1 := by
      simp only [openMatchCount, List.filter_append, List.length_append]
      rw [hsingle]
    show requestsThresholdCheck sv EqState.Idle (reqs ++ [r]) = EqState.Mobilized
    have hge : sv.strategy_threshold ≤ openMatchCount sv (reqs ++ [r]) := by
      rw [hthr, hcount, h2]
    simp only [requestsThresholdCheck, if_pos hge]
  · intro reqs e h
    cases e with
    | create r => exact hmob _ h
    | complete rid => exact hmob _ h
  · intro reqs e h
    cases e with
    | create r => exact hmob2 _ h
    | complete rid => exact hmob2 _ h

/-- Witness for C4: two matchable Open requests are pending, and the creation
of the third mobilizes the equipment at that instant. -/
theorem requestsThreshold_dispatch_witness :
    (⟨[Capability.CTV], 3⟩ : ServicingEquipment).strategy_threshold = 3 ∧
    (rtStep ⟨[Capability.CTV], 3⟩
      (EqState.Idle,
        [⟨1, 1, 1, 0, Capability.CTV, false, ReqStatus.Open⟩,
         ⟨2, 2, 1, 0, Capability.CTV, false, ReqStatus.Open⟩])
      (RtEvent.create ⟨3, 3, 1, 1, Capability.CTV, false, ReqStatus.Open⟩)).1 =
      EqState.Mobilized :=
  ⟨rfl,
    (requestsThreshold_dispatch ⟨[Capability.CTV], 3⟩ rfl).2.1
      [⟨1, 1, 1, 0, Capability.CTV, false, ReqStatus.Open⟩,
       ⟨2, 2, 1, 0, Capability.CTV, false, ReqStatus.Open⟩]
      ⟨3, 3, 1, 1, Capability.CTV, false, ReqStatus.Open⟩
      (by decide) (by decide) (by decide)⟩

/-- C5: matchRequest returns an Open, capability-matchable (and for TOW/AHV
transportable) request that no other qualifying request strictly precedes in
the (severity descending, creation time ascending, request id) priority; it
returns none when no request qualifies; and the matching API leaves the queue
state unchanged - it is a pure query. -/
theorem matchRequest_spec (sv : ServicingEquipment) (q : List RepairRequest) :
    (∀ r, matchRequest sv q = some r →
      r ∈ q ∧ eligible sv r = true ∧
        ∀ x ∈ q, eligible sv x = true → higherPriority x r = false) ∧
    ((∀ x ∈ q, eligible sv x = false) → matchRequest sv q = none) ∧
    (matchQuery sv q).2 = q := by
  refine ⟨?_, ?_, rfl⟩
  · intro r hr
    have hmem := pickBest_mem higherPriority _ r hr
    have hf := List.mem_filter.mp hmem
    refine ⟨hf.1, hf.2, ?_⟩
    intro x hx hel
    exact pickBest_best higherPriority higherPriority_trans higherPriority_irrefl _ r hr x
      (List.mem_filter.mpr ⟨hx, hel⟩)
  · intro hall
    have hnil : q.filter (eligible sv) = [] := by
      rw [List.filter_eq_nil_iff]
      intro a ha
      rw [hall a ha]
      simp
    show pickBest higherPriority (q.filter (eligible sv)) = none
    rw [hnil]
    rfl

/-- Witness for C5: among two eligible requests the severity-2 one is
returned, and it is maximal among the eligible requests. -/
theorem matchRequest_spec_witness :
    matchRequest ⟨[Capability.CTV], 3⟩
        [⟨1, 1, 1, 0, Capability.CTV, false, ReqStatus.Open⟩,
         ⟨2, 2, 2, 3, Capability.CTV, false, ReqStatus.Open⟩,
         ⟨3, 3, 1, 0, Capability.TOW, false, ReqStatus.Open⟩] =
      some ⟨2, 2, 2, 3, Capability.CTV, false, ReqStatus.Open⟩ ∧
    (⟨2, 2, 2, 3, Capability.CTV, false, ReqStatus.Open⟩ ∈
        ([⟨1, 1, 1, 0, Capability.CTV, false, ReqStatus.Open⟩,
          ⟨2, 2, 2, 3, Capability.CTV, false, ReqStatus.Open⟩,
          ⟨3, 3, 1, 0, Capability.TOW, false, ReqStatus.Open⟩] : List RepairRequest) ∧
      eligible ⟨[Capability.CTV], 3⟩ ⟨2, 2, 2, 3, Capability.CTV, false, ReqStatus.Open⟩ = true ∧
      ∀ x ∈ ([⟨1, 1, 1, 0, Capability.CTV, false, ReqStatus.Open⟩,
          ⟨2, 2, 2, 3, Capability.CTV, false, ReqStatus.Open⟩,
          ⟨3, 3, 1, 0, Capability.TOW, false, ReqStatus.Open⟩] : List RepairRequest),
        eligible ⟨[Capability.CTV], 3⟩ x = true →
          higherPriority x ⟨2, 2, 2, 3, Capability.CTV, false, ReqStatus.Open⟩ = false) :=
  ⟨by decide,
    (matchRequest_spec ⟨[Capability.CTV], 3⟩
        [⟨1, 1, 1, 0, Capability.CTV, false, ReqStatus.Open⟩,
         ⟨2, 2, 2, 3, Capability.CTV, false, ReqStatus.Open⟩,
         ⟨3, 3, 1, 0, Capability.TOW, false, ReqStatus.Open⟩]).1
      ⟨2, 2, 2, 3, Capability.CTV, false, ReqStatus.Open⟩ (by decide)⟩

/-! Farm-state lemmas for the engine-step invariant. -/

theorem mem_le_foldr_max : ∀ (l : List Nat) (x : Nat), x ∈ l → x ≤ l.foldr max 0 := by
  intro l
  induction l with
  | nil => intro x hx; exact absurd hx (List.not_mem_nil x)
  | cons a as ih =>
    intro x hx
    rcases List.mem_cons.mp hx with rfl | hx'
    · exact le_max_left _ _
    · exact le_trans (ih x hx') (le_max_right _ _)

theorem nextRid_fresh (f : FarmState) : ∀ r ∈ f.requests, r.rid < nextRid f := by
  intro r hr
  have hmem : r.rid ∈ f.requests.map (fun x => x.rid) := List.mem_map_of_mem _ hr
  have hle := mem_le_foldr_max _ _ hmem
  unfold nextRid
  omega

theorem setStatusIf_map_rid (reqs : List RepairRequest) (rid : Nat) (a b : ReqStatus) :
    (setStatusIf reqs rid a b).map (fun r => r.rid) = reqs.map (fun r => r.rid) := by
  unfold setStatusIf
  rw [List.map_map]
  congr 1
  funext r
  by_cases hc : r.rid = rid ∧ r.status = a
  · simp [hc, Function.comp]
  · simp [hc, Function.comp]

theorem setStatusIf_mem_decomp (reqs : List RepairRequest) (rid : Nat)
    (a b : ReqStatus) (x : RepairRequest) (hx : x ∈ setStatusIf reqs rid a b) :
    ∃ r ∈ reqs,
      (r.rid = rid ∧ r.status = a ∧
        x = ⟨r.rid, r.subId, r.level, r.ctime, r.capability, r.transportable, b⟩) ∨
      (¬ (r.rid = rid ∧ r.status = a) ∧ x = r) := by
  unfold setStatusIf at hx
  rcases List.mem_map.mp hx with ⟨r, hr, heq⟩
  refine ⟨r, hr, ?_⟩
  by_cases hc : r.rid = rid ∧ r.status = a
  · rw [if_pos hc] at heq
    exact Or.inl ⟨hc.1, hc.2, heq.symm⟩
  · rw [if_neg hc] at heq
    exact Or.inr ⟨hc, heq.symm⟩

theorem rid_inj_of_nodup (f : FarmState) (hnd : ridsNodup f) :
    ∀ r1 ∈ f.requests, ∀ r2 ∈ f.requests, r1.rid = r2.rid → r1 = r2 := by
  intro r1 h1 r2 h2 heq
  exact List.inj_on_of_nodup_map hnd h1 h2 heq

/-- C6: the state invariant is preserved by every engine step - after any
createRequest, assignRequest, startRepair or completeRepair step, no
subassembly is InProgress for two distinct repair requests at the same time,
every Open or Assigned request still references an existing subassembly, and
request ids stay unique. -/
theorem engineStep_preserves_invariant (f : FarmState) (hinv : FarmInv f)
    (e : EngineStep) : FarmInv (engineStep f e) := by
  obtain ⟨hnd, href, hone⟩ := hinv
  have hinj := rid_inj_of_nodup f hnd
  cases e with
  | createRequest sid lvl t cap =>
    by_cases hs : sid ∈ f.subIds
    · show FarmInv (if sid ∈ f.subIds then _ else f)
      rw [if_pos hs]
      refine ⟨?_, ?_, ?_⟩
      · show (List.map (fun r => r.rid)
          (f.requests ++ [⟨nextRid f, sid, lvl, t, cap, false, ReqStatus.Open⟩])).Nodup
        rw [List.map_append]
        refine List.nodup_append.mpr ⟨hnd, List.nodup_singleton _, ?_⟩
        intro x hx1 hx2
        rcases List.mem_map.mp hx1 with ⟨r, hr, rfl⟩
        have hlt := nextRid_fresh f r hr
        have hx2' : r.rid = nextRid f := by simpa using hx2
        omega
      · intro r hr hst
        rcases List.mem_append.mp hr with hm | hm
        · exact href r hm hst
        · have hrr : r = ⟨nextRid f, sid, lvl, t, cap, false, ReqStatus.Open⟩ := by
            simpa using hm
          rw [hrr]
          exact hs
      · intro r1 h1 r2 h2 hs1 hs2 hsub
        rcases List.mem_append.mp h1 with hm1 | hm1
        · rcases List.mem_append.mp h2 with hm2 | hm2
          · exact hone r1 hm1 r2 hm2 hs1 hs2 hsub
          · have hrr : r2 = ⟨nextRid f, sid, lvl, t, cap, false, ReqStatus.Open⟩ := by
              simpa using hm2
            rw [hrr] at hs2
            exact ReqStatus.noConfusion hs2
        · have hrr : r1 = ⟨nextRid f, sid, lvl, t, cap, false, ReqStatus.Open⟩ := by
            simpa using hm1
          rw [hrr] at hs1
          exact ReqStatus.noConfusion hs1
    · show FarmInv (if sid ∈ f.subIds then _ else f)
      rw [if_neg hs]
      exact ⟨hnd, href, hone⟩
  | assignRequest rid =>
    refine ⟨?_, ?_, ?_⟩
    · show (List.map (fun r => r.rid)
        (setStatusIf f.requests rid ReqStatus.Open ReqStatus.Assigned)).Nodup
      rw [setStatusIf_map_rid]
      exact hnd
    · intro x hx hst
      obtain ⟨r, hr, hcase⟩ := setStatusIf_mem_decomp _ _ _ _ x hx
      rcases hcase with ⟨_, hopen, hxr⟩ | ⟨_, hxr⟩
      · rw [hxr]
        exact href r hr (Or.inl hopen)
      · rw [hxr]
        exact href r hr (by rw [← hxr]; exact hst)
    · intro x1 hx1 x2 hx2 hs1 hs2 hsub
      obtain ⟨r1, hr1, hc1⟩ := setStatusIf_mem_decomp _ _ _ _ x1 hx1
      obtain ⟨r2, hr2, hc2⟩ := setStatusIf_mem_decomp _ _ _ _ x2 hx2
      rcases hc1 with ⟨_, _, hxr1⟩ | ⟨_, hxr1⟩
      · rw [hxr1] at hs1
        exact ReqStatus.noConfusion hs1
      · rcases hc2 with ⟨_, _, hxr2⟩ | ⟨_, hxr2⟩
        · rw [hxr2] at hs2
          exact ReqStatus.noConfusion hs2
        · rw [hxr1] at hs1 hsub ⊢
          rw [hxr2] at hs2 hsub ⊢
          exact hone r1 hr1 r2 hr2 hs1 hs2 hsub
  | startRepair rid =>
    show FarmInv (match f.requests.find? (fun r => decide (r.rid = rid)) with
      | some r =>
        if r.status = ReqStatus.Assigned ∧ subBusy f r.subId = false then
          ⟨f.subIds, setStatusIf f.requests rid ReqStatus.Assigned ReqStatus.InProgress⟩
        else f
      | none => f)
    cases hfind : f.requests.find? (fun r => decide (r.rid = rid)) with
    | none => exact ⟨hnd, href, hone⟩
    | some r0 =>
      have hr0mem : r0 ∈ f.requests := List.mem_of_find?_eq_some hfind
      have hr0rid : r0.rid = rid := by
        have := List.find?_some hfind
        simpa using this
      show FarmInv (if r0.status = ReqStatus.Assigned ∧ subBusy f r0.subId = false then
        (⟨f.subIds, setStatusIf f.requests rid ReqStatus.Assigned ReqStatus.InProgress⟩ : FarmState)
      else f)
      by_cases hguard : r0.status = ReqStatus.Assigned ∧ subBusy f r0.subId = false
      · rw [if_pos hguard]
        obtain ⟨hass, hbusy⟩ := hguard
        refine ⟨?_, ?_, ?_⟩
        · show (List.map (fun r => r.rid)
            (setStatusIf f.requests rid ReqStatus.Assigned ReqStatus.InProgress)).Nodup
          rw [setStatusIf_map_rid]
          exact hnd
        · intro x hx hst
          obtain ⟨r, hr, hcase⟩ := setStatusIf_mem_decomp _ _ _ _ x hx
          rcases hcase with ⟨_, _, hxr⟩ | ⟨_, hxr⟩
          · rw [hxr] at hst
            rcases hst with hc | hc
            · exact ReqStatus.noConfusion hc
            · exact ReqStatus.noConfusion hc
          · rw [hxr]
            exact href r hr (by rw [← hxr]; exact hst)
        · intro x1 hx1 x2 hx2 hs1 hs2 hsub
          obtain ⟨r1, hr1, hc1⟩ := setStatusIf_mem_decomp _ _ _ _ x1 hx1
          obtain ⟨r2, hr2, hc2⟩ := setStatusIf_mem_decomp _ _ _ _ x2 hx2
          have hbusy' : ∀ r ∈ f.requests, r.subId = r0.subId →
              r.status ≠ ReqStatus.InProgress := by
            intro r hr hrs hrst
            have : subBusy f r0.subId = true := by
              unfold subBusy
              rw [List.any_eq_true]
              exact ⟨r, hr, by simp [hrs, hrst]⟩
            rw [this] at hbusy
            exact Bool.noConfusion hbusy
          rcases hc1 with ⟨hrid1, hass1, hxr1⟩ | ⟨hnc1, hxr1⟩
          · rcases hc2 with ⟨hrid2, hass2, hxr2⟩ | ⟨hnc2, hxr2⟩
            · have : r1 = r2 := hinj r1 hr1 r2 hr2 (by rw [hrid1, hrid2])
              rw [hxr1, hxr2, this]
            · -- x2 is an untouched InProgress request on the same subassembly
              have hr10 : r1 = r0 := hinj r1 hr1 r0 hr0mem (by rw [hrid1, hr0rid])
              have hsub2 : r2.subId = r0.subId := by
                have h1 : x1.subId = r1.subId := by rw [hxr1]
                have h2 : x2.subId = r2.subId := by rw [hxr2]
                rw [h1, h2, hr10] at hsub
                exact hsub.symm
              have hst2 : r2.status = ReqStatus.InProgress := by
                rw [← hxr2]
                exact hs2
              exact absurd hst2 (hbusy' r2 hr2 hsub2)
          · rcases hc2 with ⟨hrid2, hass2, hxr2⟩ | ⟨hnc2, hxr2⟩
            · have hr20 : r2 = r0 := hinj r2 hr2 r0 hr0mem (by rw [hrid2, hr0rid])
              have hsub1 : r1.subId = r0.subId := by
                have h1 : x1.subId = r1.subId := by rw [hxr1]
                have h2 : x2.subId = r2.subId := by rw [hxr2]
                rw [h1, h2, hr20] at hsub
                exact hsub
              have hst1 : r1.status = ReqStatus.InProgress := by
                rw [← hxr1]
                exact hs1
              exact absurd hst1 (hbusy' r1 hr1 hsub1)
            · rw [hxr1] at hs1 hsub ⊢
              rw [hxr2] at hs2 hsub ⊢
              exact hone r1 hr1 r2 hr2 hs1 hs2 hsub
      · rw [if_neg hguard]
        exact ⟨hnd, href, hone⟩
  | completeRepair rid =>
    have hsub : ∀ x ∈ f.requests.filter
        (fun r => !(decide (r.rid = rid) && decide (r.status = ReqStatus.InProgress))),
        x ∈ f.requests := by
      intro x hx
      exact List.mem_of_mem_filter hx
    refine ⟨?_, ?_, ?_⟩
    · show (List.map (fun r => r.rid) (f.requests.filter _)).Nodup
      exact hnd.sublist ((List.filter_sublist f.requests).map (fun r => r.rid))
    · intro x hx hst
      exact href x (hsub x hx) hst
    · intro x1 hx1 x2 hx2 hs1 hs2 hss
      exact hone x1 (hsub x1 hx1) x2 (hsub x2 hx2) hs1 hs2 hss

/-- Witness for C6: a concrete two-subassembly farm with an Assigned and an
Open request keeps the invariant across a startRepair step. -/
theorem engineStep_preserves_invariant_witness :
    FarmInv ⟨[1, 2],
      [⟨1, 1, 2, 0, Capability.CTV, false, ReqStatus.Assigned⟩,
       ⟨2, 2, 1, 0, Capability.CTV, false, ReqStatus.Open⟩]⟩ ∧
    FarmInv (engineStep ⟨[1, 2],
      [⟨1, 1, 2, 0, Capability.CTV, false, ReqStatus.Assigned⟩,
       ⟨2, 2, 1, 0, Capability.CTV, false, ReqStatus.Open⟩]⟩
      (EngineStep.startRepair 1)) := by
  have hinv : FarmInv ⟨[1, 2],
      [⟨1, 1, 2, 0, Capability.CTV, false, ReqStatus.Assigned⟩,
       ⟨2, 2, 1, 0, Capability.CTV, false, ReqStatus.Open⟩]⟩ := by
    refine ⟨?_, ?_, ?_⟩
    · unfold ridsNodup
      decide
    · unfold refsExist
      decide
    · unfold oneInProgress
      decide
  exact ⟨hinv, engineStep_preserves_invariant _ hinv (EngineStep.startRepair 1)⟩

/-! Port lemmas: admissions respect capacity and take from the head of the
FIFO. -/

theorem pumpAux_length (cap : Nat) :
    ∀ (w inSvc : List Nat), inSvc.length ≤ cap →
      (pumpAux cap inSvc w).1.length ≤ cap := by
  intro w
  induction w with
  | nil => intro s hs; exact hs
  | cons r rs ih =>
    intro s hs
    show (if s.length < cap then pumpAux cap (s ++ [r]) rs else (s, r :: rs)).1.length ≤ cap
    by_cases hlt : s.length < cap
    · rw [if_pos hlt]
      apply ih
      rw [List.length_append]
      simp only [List.length_singleton]
      omega
    · rw [if_neg hlt]
      exact hs

theorem pumpAux_shape (cap : Nat) :
    ∀ (w inSvc : List Nat), ∃ k,
      (pumpAux cap inSvc w).1 = inSvc ++ w.take k ∧
      (pumpAux cap inSvc w).2 = w.drop k := by
  intro w
  induction w with
  | nil =>
    intro s
    exact ⟨0, by simp [pumpAux], by simp [pumpAux]⟩
  | cons r rs ih =>
    intro s
    by_cases hlt : s.length < cap
    · obtain ⟨k, h1, h2⟩ := ih (s ++ [r])
      refine ⟨k + 1, ?_, ?_⟩
      · show (if s.length < cap then pumpAux cap (s ++ [r]) rs else (s, r :: rs)).1 =
          s ++ (r :: rs).take (k + 1)
        rw [if_pos hlt, h1, List.take_succ_cons, List.append_assoc]
        rfl
      · show (if s.length < cap then pumpAux cap (s ++ [r]) rs else (s, r :: rs)).2 =
          (r :: rs).drop (k + 1)
        rw [if_pos hlt, h2, List.drop_succ_cons]
    · refine ⟨0, ?_, ?_⟩
      · show (if s.length < cap then pumpAux cap (s ++ [r]) rs else (s, r :: rs)).1 =
          s ++ (r :: rs).take 0
        rw [if_neg hlt]
        simp
      · show (if s.length < cap then pumpAux cap (s ++ [r]) rs else (s, r :: rs)).2 =
          (r :: rs).drop 0
        rw [if_neg hlt]
        rfl

theorem portStep_capacity_eq (p : Port) (e : PortEvent) :
    (portStep p e).capacity = p.capacity := by
  cases e <;> rfl

theorem portStep_inService_le (p : Port) (e : PortEvent)
    (h : p.inService.length ≤ p.capacity) :
    (portStep p e).inService.length ≤ (portStep p e).capacity := by
  cases e with
  | arrive rid =>
    exact pumpAux_length p.capacity (p.waiting ++ [rid]) p.inService h
  | finish rid =>
    apply pumpAux_length
    exact le_trans (List.length_filter_le _ _) h

theorem portReachable_le (cap : Nat) (p : Port) (h : PortReachable cap p) :
    p.capacity = cap ∧ p.inService.length ≤ p.capacity := by
  induction h with
  | init => exact ⟨rfl, by simp [initPort]⟩
  | step q e hq ih =>
    exact ⟨by rw [portStep_capacity_eq]; exact ih.1, portStep_inService_le q e ih.2⟩

/-- C7: Port capacity is a hard FIFO limit.  In every reachable port state the
number of tow requests in service never exceeds the capacity; with capacity 1,
while one request is in service it is the only one, so a second TOW request
arriving while the sole tug is busy never starts before the first finishes -
and it starts right after; arrivals are admitted from the head of the FIFO
only; and every event has a successor state (reaching capacity never raises an
overflow error or aborts the run). -/
theorem port_capacity_fifo (cap : Nat) (p : Port) (hreach : PortReachable cap p) :
    p.inService.length ≤ p.capacity ∧
    (p.capacity = 1 → ∀ a ∈ p.inService, p.inService = [a]) ∧
    (∀ rid, ∃ k,
      (portStep p (PortEvent.arrive rid)).inService =
          p.inService ++ (p.waiting ++ [rid]).take k ∧
        (portStep p (PortEvent.arrive rid)).waiting = (p.waiting ++ [rid]).drop k) ∧
    (∀ a b : Nat, p.capacity = 1 → p.inService = [a] → p.waiting = [] →
      (portStep p (PortEvent.arrive b)).inService = [a] ∧
      (portStep p (PortEvent.arrive b)).waiting = [b] ∧
      (portStep (portStep p (PortEvent.arrive b)) (PortEvent.finish a)).inService = [b]) ∧
    (∀ e : PortEvent, PortReachable cap (portStep p e)) := by
  refine ⟨(portReachable_le cap p hreach).2, ?_, ?_, ?_, ?_⟩
  · intro hcap a ha
    have hlen : p.inService.length ≤ 1 := by
      have := (portReachable_le cap p hreach).2
      omega
    cases hsvc : p.inService with
    | nil => rw [hsvc] at ha; exact absurd ha (List.not_mem_nil a)
    | cons x xs =>
      cases xs with
      | nil =>
        rw [hsvc] at ha
        have : a = x := by simpa using ha
        rw [this]
      | cons y ys =>
        rw [hsvc] at hlen
        simp at hlen
  · intro rid
    exact pumpAux_shape p.capacity (p.waiting ++ [rid]) p.inService
  · intro a b hcap hsvc hwait
    obtain ⟨pc, pw, ps⟩ := p
    simp only at hcap hsvc hwait
    subst hcap
    subst hsvc
    subst hwait
    refine ⟨?_, ?_, ?_⟩
    · simp [portStep, pump, pumpAux]
    · simp [portStep, pump, pumpAux]
    · simp [portStep, pump, pumpAux]
  · intro e
    exact PortReachable.step p e hreach

/-- Witness for C7 at a reachable capacity-1 port with one arrival. -/
theorem port_capacity_fifo_witness :
    PortReachable 1 (portStep (initPort 1) (PortEvent.arrive 7)) ∧
    (portStep (initPort 1) (PortEvent.arrive 7)).inService.length ≤
      (portStep (initPort 1) (PortEvent.arrive 7)).capacity :=
  ⟨PortReachable.step (initPort 1) (PortEvent.arrive 7) PortReachable.init,
    (port_capacity_fifo 1 (portStep (initPort 1) (PortEvent.arrive 7))
      (PortReachable.step (initPort 1) (PortEvent.arrive 7) PortReachable.init)).1⟩

/-- C8: the core's run entry point accepts horizons that are not a multiple of
8760 hours without error; the divisibility failure belongs to the external SAM
financial post-processing collaborator, which rejects exactly those run
lengths, not to the core run itself. -/
theorem run_accepts_any_horizon (s : Simulation) (hours : Nat)
    (hnd : hours % 8760 ≠ 0) :
    s.runE (some hours) = Except.ok (s.run (some hours)) ∧
    samPostProcess s hours = Except.error SimError.SAMHorizonMismatch := by
  refine ⟨rfl, ?_⟩
  simp only [samPostProcess, if_neg hnd]

/-- Witness for C8: a 100-hour run (not a multiple of 8760) is accepted by the
core entry point while the external SAM post-processing rejects it. -/
theorem run_accepts_any_horizon_witness :
    (100 % 8760 ≠ 0) ∧
    ((⟨⟨"dinwoodie_base", "DINWOODIE", 7, 19, 2003, 2012⟩, 0, [], none⟩ :
        Simulation).runE (some 100) =
      Except.ok ((⟨⟨"dinwoodie_base", "DINWOODIE", 7, 19, 2003, 2012⟩, 0, [], none⟩ :
        Simulation).run (some 100)) ∧
      samPostProcess
        (⟨⟨"dinwoodie_base", "DINWOODIE", 7, 19, 2003, 2012⟩, 0, [], none⟩ : Simulation)
        100 = Except.error SimError.SAMHorizonMismatch) :=
  ⟨by decide,
    run_accepts_any_horizon
      ⟨⟨"dinwoodie_base", "DINWOODIE", 7, 19, 2003, 2012⟩, 0, [], none⟩ 100 (by decide)⟩

/-- C9: the two construction paths are equivalent.  When the named file loads
to the given configuration and the configuration's library pointer matches the
provided library, Simulation.ofLibrary builds exactly what
Simulation.from_config builds, and the two constructed simulations produce
identical results for the same seed and any run length. -/
theorem construction_paths_equivalent (lib : SimLibrary) (file : String)
    (cfg : Config) (seed : Nat) (hload : load_yaml lib file = some cfg)
    (hmatch : cfg.library = lib.path) :
    Simulation.ofLibrary lib file seed = Simulation.from_config cfg seed ∧
    (∀ s1 s2, Simulation.ofLibrary lib file seed = Except.ok s1 →
      Simulation.from_config cfg seed = Except.ok s2 →
        ∀ u, s1.run u = s2.run u) := by
  have heq : Simulation.ofLibrary lib file seed = Simulation.from_config cfg seed := by
    unfold Simulation.ofLibrary
    rw [hload]
    show (if cfg.library = lib.path then Simulation.from_config cfg seed
      else Except.error SimError.ConfigurationError) = Simulation.from_config cfg seed
    rw [if_pos hmatch]
  refine ⟨heq, ?_⟩
  intro s1 s2 h1 h2 u
  rw [heq] at h1
  rw [h1] at h2
  rw [Except.ok.inj h2]

/-- Witness for C9: the DINWOODIE-style library with its base configuration
gives the same simulation through both construction paths. -/
theorem construction_paths_equivalent_witness :
    (load_yaml ⟨"DINWOODIE",
        [("base.yaml", ⟨"dinwoodie_base", "DINWOODIE", 7, 19, 2003, 2012⟩)]⟩ "base.yaml" =
      some ⟨"dinwoodie_base", "DINWOODIE", 7, 19, 2003, 2012⟩ ∧
      (⟨"dinwoodie_base", "DINWOODIE", 7, 19, 2003, 2012⟩ : Config).library = "DINWOODIE") ∧
    Simulation.ofLibrary ⟨"DINWOODIE",
        [("base.yaml", ⟨"dinwoodie_base", "DINWOODIE", 7, 19, 2003, 2012⟩)]⟩ "base.yaml" 0 =
      Simulation.from_config ⟨"dinwoodie_base", "DINWOODIE", 7, 19, 2003, 2012⟩ 0 :=
  ⟨⟨rfl, rfl⟩,
    (construction_paths_equivalent
      ⟨"DINWOODIE", [("base.yaml", ⟨"dinwoodie_base", "DINWOODIE", 7, 19, 2003, 2012⟩)]⟩
      "base.yaml" ⟨"dinwoodie_base", "DINWOODIE", 7, 19, 2003, 2012⟩ 0 rfl rfl).1⟩

/-- C10: calling run() with no explicit bound runs the simulation for the full
configured length (the whole-year horizon determined by the configured start
and end years), and on completion the metrics interface is loaded from the
produced event log without any further setup calls. -/
theorem run_default_full_length_and_metrics (s : Simulation) :
    s.run none = s.run (some s.config.maxRunTime) ∧
    (s.run none).log = engineRun s.config s.seed ((s.config.end_year + 1 - s.config.start_year) * 8760) ∧
    (s.run none).metrics = some (computeMetrics ((s.run none).log)) ∧
    ((s.run none).metrics).isSome = true :=
  ⟨rfl, rfl, rfl, rfl⟩
